import Mathlib

/-!
# Verification of the image-keyed substitution cipher

A shallow embedding, in Lean 4, of the core of a small web application that
maps plaintext characters to images and back.  The Python sources are
`app.py` (alphabet handling, keyed bucketing, corpus indexing, the
encrypt/decrypt endpoints) and `image_to_binary.py` (the block-based image
fingerprint).  Pure functions are translated directly; the stateful parts of
the endpoints (the per-call used-set, the persisted mapping file) are made
explicit as state passed through the functions, and the random selection is
modelled by an arbitrary chooser function ranging over all possible random
outcomes.  Fallible operations (image decoding) are modelled with `Option`.
-/

/-! ## Alphabet and character maps (`app.py`) -/

/-- `ALPHABET = "ABCDEFGHIJKLMNOPQRSTUVWXYZ ,."` (app.py line 25). -/
def ALPHABET : List Char := "ABCDEFGHIJKLMNOPQRSTUVWXYZ ,.".data

/-- `ALPHABET_SIZE = len(ALPHABET)` (app.py line 26). -/
def ALPHABET_SIZE : Nat := ALPHABET.length

theorem ALPHABET_SIZE_eq : ALPHABET_SIZE = 29 := by decide

/-- `char_to_index` (app.py lines 81-86): upper-case the character, return its
position in `ALPHABET` if present, otherwise the position of the space. -/
def char_to_index (ch : Char) : Nat :=
  let c := ch.toUpper
  if c ∈ ALPHABET then ALPHABET.indexOf c
  else ALPHABET.indexOf ' '

theorem int_emod29_toNat_lt (idx : Int) : (idx % 29).toNat < 29 := by
  have h1 : 0 ≤ idx % 29 := Int.emod_nonneg idx (by decide)
  have h2 : idx % 29 < 29 := Int.emod_lt_of_pos idx (by decide)
  omega

theorem int_emod29_toNat_lt_length (idx : Int) :
    (idx % 29).toNat < ALPHABET.length := by
  have h : ALPHABET.length = 29 := by decide
  rw [h]; exact int_emod29_toNat_lt idx

/-- `index_to_char` (app.py lines 89-90): `ALPHABET[idx % ALPHABET_SIZE]`.
Python `%` on integers with a positive modulus agrees with `Int.emod`:
the result is always in `[0, 29)`, so the access is in range. -/
def index_to_char (idx : Int) : Char :=
  ALPHABET.get ⟨(idx % 29).toNat, int_emod29_toNat_lt_length idx⟩

/-! ## SHA-256 (the `hashlib.sha256` call in `compute_char_index`)

A byte-level implementation of FIPS 180-4 SHA-256 over `List Nat`
(each element a byte), with 32-bit words represented as `Nat` reduced
modulo `2 ^ 32`. -/

/-- The sixty-four SHA-256 round constants. -/
def shaK : List Nat :=
  [1116352408, 1899447441, 3049323471, 3921009573, 961987163,
   1508970993, 2453635748, 2870763221, 3624381080, 310598401,
   607225278, 1426881987, 1925078388, 2162078206, 2614888103,
   3248222580, 3835390401, 4022224774, 264347078, 604807628,
   770255983, 1249150122, 1555081692, 1996064986, 2554220882,
   2821834349, 2952996808, 3210313671, 3336571891, 3584528711,
   113926993, 338241895, 666307205, 773529912, 1294757372,
   1396182291, 1695183700, 1986661051, 2177026350, 2456956037,
   2730485921, 2820302411, 3259730800, 3345764771, 3516065817,
   3600352804, 4094571909, 275423344, 430227734, 506948616,
   659060556, 883997877, 958139571, 1322822218, 1537002063,
   1747873779, 1955562222, 2024104815, 2227730452, 2361852424,
   2428436474, 2756734187, 3204031479, 3329325298]

/-- The SHA-256 initial hash value. -/
def shaH0 : List Nat :=
  [1779033703, 3144134277, 1013904242, 2773480762,
   1359893119, 2600822924, 528734635, 1541459225]

/-- Right rotation of a 32-bit word. -/
def rotr32 (n x : Nat) : Nat :=
  (x / 2 ^ n + x % 2 ^ n * 2 ^ (32 - n)) % 4294967296

/-- 32-bit bitwise complement. -/
def bnot32 (x : Nat) : Nat := 4294967295 - x % 4294967296

def shaCh (e f g : Nat) : Nat := (e &&& f) ^^^ (bnot32 e &&& g)

def shaMaj (a b c : Nat) : Nat := (a &&& b) ^^^ (a &&& c) ^^^ (b &&& c)

def shaS0 (x : Nat) : Nat := rotr32 2 x ^^^ rotr32 13 x ^^^ rotr32 22 x

def shaS1 (x : Nat) : Nat := rotr32 6 x ^^^ rotr32 11 x ^^^ rotr32 25 x

def shas0 (x : Nat) : Nat := rotr32 7 x ^^^ rotr32 18 x ^^^ x / 2 ^ 3

def shas1 (x : Nat) : Nat := rotr32 17 x ^^^ rotr32 19 x ^^^ x / 2 ^ 10

/-- `n` bytes of `v`, big-endian. -/
def toBytesBE : Nat → Nat → List Nat
  | 0, _ => []
  | m + 1, v => toBytesBE m (v / 256) ++ [v % 256]

/-- SHA-256 message padding: append `0x80`, zeros up to 56 mod 64 bytes,
then the bit length as an 8-byte big-endian integer. -/
def sha256pad (msg : List Nat) : List Nat :=
  msg ++ [128] ++ List.replicate ((119 - msg.length % 64) % 64) 0
      ++ toBytesBE 8 (8 * msg.length % 2 ^ 64)

/-- Split a byte list into 64-byte chunks; `fuel` bounds the recursion depth
(structural recursion keeps the definition kernel-reducible). -/
def chunks64Go : Nat → List Nat → List (List Nat)
  | 0, _ => []
  | fuel + 1, l => if l = [] then [] else l.take 64 :: chunks64Go fuel (l.drop 64)

/-- Split a byte list into 64-byte chunks. -/
def chunks64 (l : List Nat) : List (List Nat) := chunks64Go l.length l

/-- The 32-bit word formed by bytes `4t .. 4t+3` of a block, big-endian. -/
def shaWord (block : List Nat) (t : Nat) : Nat :=
  block.getD (4 * t) 0 * 16777216 + block.getD (4 * t + 1) 0 * 65536 +
    block.getD (4 * t + 2) 0 * 256 + block.getD (4 * t + 3) 0

/-- The 64-entry message schedule of one block. -/
def shaSchedule (block : List Nat) : List Nat :=
  (List.range 64).foldl (fun ws t =>
    if t < 16 then ws ++ [shaWord block t]
    else ws ++ [(shas1 (ws.getD (t - 2) 0) + ws.getD (t - 7) 0 +
                 shas0 (ws.getD (t - 15) 0) + ws.getD (t - 16) 0) % 4294967296]) []

/-- One SHA-256 compression round on the eight working variables. -/
def shaRound (k w : Nat) : List Nat → List Nat
  | [a, b, c, d, e, f, g, h] =>
      let t1 := (h + shaS1 e + shaCh e f g + k + w) % 4294967296
      let t2 := (shaS0 a + shaMaj a b c) % 4294967296
      [(t1 + t2) % 4294967296, a, b, c, (d + t1) % 4294967296, e, f, g]
  | st => st

/-- Compress one 64-byte block into the running hash state. -/
def shaCompress (hs : List Nat) (block : List Nat) : List Nat :=
  let ws := shaSchedule block
  let fin := (List.range 64).foldl
    (fun st t => shaRound (shaK.getD t 0) (ws.getD t 0) st) hs
  List.zipWith (fun x y => (x + y) % 4294967296) hs fin

/-- SHA-256 of a byte list, as the 32-byte digest. -/
def sha256 (msg : List Nat) : List Nat :=
  ((chunks64 (sha256pad msg)).foldl shaCompress shaH0).bind (toBytesBE 4)

/-- UTF-8 encoding of one character (as a list of bytes). -/
def utf8EncodeChar (c : Char) : List Nat :=
  let n := c.toNat
  if n < 128 then [n]
  else if n < 2048 then [192 + n / 64, 128 + n % 64]
  else if n < 65536 then [224 + n / 4096, 128 + n / 64 % 64, 128 + n % 64]
  else [240 + n / 262144, 128 + n / 4096 % 64, 128 + n / 64 % 64, 128 + n % 64]

/-- UTF-8 encoding of a string, `str.encode("utf-8")` in Python. -/
def utf8Encode (s : String) : List Nat := s.data.bind utf8EncodeChar

/-- Python's `int.from_bytes(bytes, "big")`. -/
def int_from_bytes_be (l : List Nat) : Nat := l.foldl (fun acc b => acc * 256 + b) 0

/-- `compute_char_index` (app.py lines 98-102): hash
`key + ":" + binary_code` (UTF-8), take the first 4 digest bytes as a
big-endian integer, reduce modulo the alphabet size.  (For an actual string
argument Python's `binary_code or ""` is the identity, since `"" or ""`
is `""`.) -/
def compute_char_index (binary_code : String) (key : String) : Nat :=
  int_from_bytes_be ((sha256 (utf8Encode (key ++ ":" ++ binary_code))).take 4)
    % ALPHABET_SIZE

/-! ## Corpus indexing (`initialize_key_mapping`, app.py lines 105-156)

The filesystem is made explicit: whether a persisted `mapping.json` exists,
whether the corpus directory exists and which (sorted) image filenames it
holds, and the fingerprint of each corpus file.  `image_to_binary` is
abstracted as a function `fp : String → Option String` from filename to
fingerprint (`none` models an unreadable image). -/

/-- The bucket table `groups`: an association list from bucket index to the
list of image filenames in that bucket (the Python dict keyed by `str(i)`,
modelled with `Nat` keys). -/
abbrev Groups := List (Nat × List String)

/-- `groups = {str(i): [] for i in range(ALPHABET_SIZE)}` (app.py line 122). -/
def initGroups : Groups := (List.range ALPHABET_SIZE).map (fun i => (i, []))

/-- `groups[idx_str].append(target_name)` (app.py line 151). -/
def updateGroups (g : Groups) (i : Nat) (f : String) : Groups :=
  g.map (fun p => if p.1 = i then (p.1, p.2 ++ [f]) else p)

/-- Bucket lookup, `mapping.get(idx_str) or []` (app.py line 328). -/
def lookupGroups (g : Groups) (i : Nat) : List String := (g.lookup i).getD []

/-- The bucket-building loop of `initialize_key_mapping` (app.py lines
136-151): for each corpus image in filename order, skip it when its
fingerprint is `None` or empty, otherwise append its name to the bucket
selected by `compute_char_index`. -/
def buildGroups (fp : String → Option String) (key : String)
    (corpus : List String) : Groups :=
  corpus.foldl (fun g name =>
    match fp name with
    | none => g
    | some s => if s = "" then g else updateGroups g (compute_char_index s key) name)
    initGroups

/-- `initialize_key_mapping` (app.py lines 105-156), the spec's
`get_or_build_mapping`.  `persisted` is the content of `mapping.json` when
that file exists; `corpusDir` is `some` of the sorted corpus filenames when
the `RawImg` directory exists.  The result carries the returned
`(mapping, builtNow)` pair together with the mapping newly written to
`mapping.json` (`none` when nothing is written); a missing corpus raises
(`RuntimeError`), modelled as `Except.error`, and nothing is written. -/
def initialize_key_mapping (persisted : Option Groups)
    (corpusDir : Option (List String)) (fp : String → Option String)
    (key : String) : Except String (Groups × Bool × Option Groups) :=
  match persisted with
  | some m => Except.ok (m, false, none)
  | none =>
    match corpusDir with
    | none => Except.error "raw image directory does not exist"
    | some corpus =>
      let g := buildGroups fp key corpus
      Except.ok (g, true, some g)

/-! ## The cipher engine (`api_encrypt_text`, `api_decrypt_images`)

The encode loop (app.py lines 322-346) is modelled with its two pieces of
per-call state made explicit: the per-bucket used-set `used` (the dict
`used_per_index`, created empty at the start of each call) and a step
counter `k` feeding the chooser.  `random.choice` is modelled by an
arbitrary `chooser : Nat → List String → String`, quantified in the
theorems over all functions that pick an element of a nonempty list, so
every possible random outcome is covered. -/

/-- The selection loop of `api_encrypt_text`: for each character, look up
its bucket; an empty bucket contributes nothing; otherwise choose from the
not-yet-used candidates if any remain, else from all candidates, and mark
the choice used.  Returns the ordered `(bucket, filename)` selections from
which the URLs are formed. -/
def encryptText (mapping : Groups) (chooser : Nat → List String → String) :
    List Char → Nat → (Nat → List String) → List (Nat × String)
  | [], _, _ => []
  | ch :: rest, k, used =>
    let idx := char_to_index ch
    let files := lookupGroups mapping idx
    if files = [] then encryptText mapping chooser rest k used
    else
      let unused := files.filter (fun f => decide (f ∉ used idx))
      let chosen := if unused = [] then chooser k files else chooser k unused
      (idx, chosen) ::
        encryptText mapping chooser rest (k + 1)
          (fun j => if j = idx then chosen :: used j else used j)

/-- Instrumented copy of `encryptText` that also records, with each
selection, the used-set of its bucket at the moment of the selection. -/
def encryptTrace (mapping : Groups) (chooser : Nat → List String → String) :
    List Char → Nat → (Nat → List String) → List (Nat × List String × String)
  | [], _, _ => []
  | ch :: rest, k, used =>
    let idx := char_to_index ch
    let files := lookupGroups mapping idx
    if files = [] then encryptTrace mapping chooser rest k used
    else
      let unused := files.filter (fun f => decide (f ∉ used idx))
      let chosen := if unused = [] then chooser k files else chooser k unused
      (idx, used idx, chosen) ::
        encryptTrace mapping chooser rest (k + 1)
          (fun j => if j = idx then chosen :: used j else used j)

/-- The decode loop of `api_decrypt_images` (app.py lines 367-379): for each
uploaded image in order, recompute its fingerprint (`fp`), skip the image
when the fingerprint is `None` or empty, otherwise append
`index_to_char(compute_char_index(fingerprint, key))`. -/
def decryptImages (fp : String → Option String) (key : String)
    (files : List String) : List Char :=
  files.filterMap (fun f =>
    match fp f with
    | none => none
    | some s =>
      if s = "" then none
      else some (index_to_char (compute_char_index s key)))

/-- The alphabet-normalized form of a character, as the round-trip claim
states it: upper-cased, with characters outside the alphabet replaced by a
space. -/
def normalizeChar (ch : Char) : Char :=
  if ch.toUpper ∈ ALPHABET then ch.toUpper else ' '

/-! ## Block partition (`divide_image_into_blocks`, image_to_binary.py 76-108) -/

/-- The `(x1, y1, x2, y2)` rectangle of grid cell `(i, j)` (row `i`,
column `j`) for an `h × w` raster (image_to_binary.py lines 99-102):
`block_h = h // 4`, `block_w = w // 4`, and the last row and column extend
to the image edge. -/
def blockRect (h w i j : Nat) : Nat × Nat × Nat × Nat :=
  (j * (w / 4), i * (h / 4),
   if j < 3 then (j + 1) * (w / 4) else w,
   if i < 3 then (i + 1) * (h / 4) else h)

/-- The `block_coords` list produced by `divide_image_into_blocks` for an
`h × w` raster with the fixed `(4, 4)` block grid: the 16 cell rectangles
in row-major order. -/
def divide_image_into_blocks (h w : Nat) : List (Nat × Nat × Nat × Nat) :=
  (List.range 4).bind (fun i => (List.range 4).map (fun j => blockRect h w i j))

/-- Pixel `(x, y)` lies in block `(x1, y1, x2, y2)`
(`block = image[y1:y2, x1:x2]`). -/
def containsPix (b : Nat × Nat × Nat × Nat) (x y : Nat) : Bool :=
  decide (b.1 ≤ x) && decide (x < b.2.2.1) && decide (b.2.1 ≤ y) && decide (y < b.2.2.2)

/-- The row index of the unique block row containing scanline `y`. -/
def rowOf (h y : Nat) : Nat :=
  if y < h / 4 then 0
  else if y < 2 * (h / 4) then 1
  else if y < 3 * (h / 4) then 2
  else 3

/-! ## Quadrant encoding (`get_vector_quadrant`, image_to_binary.py 111-171)

`image_to_binary` always calls `get_vector_quadrant` with the scalar mean
keypoint angle, so the scalar branch of the function is the one modelled.
The code computes `angle_deg = np.degrees(direction) % 360`; the conversion
to degrees is a real-number scaling performed before the modulo, so the
model takes the degree value itself as a rational argument and applies the
(exact) Python float modulo. -/

/-- Python's `x % 360.0` for a real operand: the representative in
`[0, 360)`. -/
def pymod360 (x : ℚ) : ℚ := x - 360 * ⌊x / 360⌋

/-- `tolerance = 1e-6` (image_to_binary.py line 156). -/
def axisTolerance : ℚ := 1 / 1000000

/-- The axis test of `get_vector_quadrant` (image_to_binary.py lines
159-161): the normalized angle is within the tolerance of one of
`0/90/180/270/360` degrees (the chained `abs(...) < tolerance or ...`
condition of the source). -/
def axisNear (d : ℚ) : Prop :=
  |d| < axisTolerance ∨ |d - 90| < axisTolerance ∨ |d - 180| < axisTolerance ∨
    |d - 270| < axisTolerance ∨ |d - 360| < axisTolerance

instance (d : ℚ) : Decidable (axisNear d) := by
  unfold axisNear
  infer_instance

/-- The quadrant branch of `get_vector_quadrant` (image_to_binary.py lines
155-171): an angle within the tolerance of `0/90/180/270/360` degrees
yields the sentinel `"--"`; otherwise the open quadrants yield `"00"`,
`"01"`, `"10"` and the final `else` yields `"11"`. -/
def get_vector_quadrant (angle : ℚ) : String :=
  let angle_deg := pymod360 angle
  if axisNear angle_deg then "--"
  else if 0 < angle_deg ∧ angle_deg < 90 then "00"
  else if 90 < angle_deg ∧ angle_deg < 180 then "01"
  else if 180 < angle_deg ∧ angle_deg < 270 then "10"
  else "11"

/-- The per-block code of `image_to_binary` (lines 219-237): blocks with no
surviving keypoint contribute the default `"00"`, all others the quadrant
code of their mean keypoint angle (in degrees, after the `np.degrees`
scaling). -/
def blockCode (a : Option ℚ) : String :=
  match a with
  | none => "00"
  | some ang => get_vector_quadrant ang

/-- `binary_string = ''.join(binary_bits)` (image_to_binary.py line 241),
from the per-block mean angles. -/
def binaryStringOfBlocks (angles : List (Option ℚ)) : String :=
  String.join (angles.map blockCode)

/-- The outer shape of `image_to_binary` (lines 187-243): `cv2.imread`
failure (modelled by `none`) yields `None`; otherwise the 16 block codes
are concatenated.  The argument carries, for a readable image, the mean
surviving-keypoint angle of each of the 16 blocks. -/
def image_to_binary (img : Option (List (Option ℚ))) : Option String :=
  match img with
  | none => none
  | some blocks => some (binaryStringOfBlocks blocks)

/-! ## Theorems -/

set_option maxRecDepth 10000 in
/-- Sanity check of the SHA-256 embedding against the FIPS 180-4 test
vector for the message `"abc"`. -/
theorem sha256_nist_vector :
    sha256 (utf8Encode "abc") =
      [186, 120, 22, 191, 143, 1, 207, 234,
       65, 65, 64, 222, 93, 174, 34, 35,
       176, 3, 97, 163, 150, 23, 122, 156,
       180, 16, 255, 97, 242, 0, 21, 173] := by
  decide

/-- C1: for every key and fingerprint, `compute_char_index` equals the
SHA-256 of the UTF-8 bytes of `key + ":" + fingerprint`, first 4 digest
bytes taken big-endian, reduced modulo 29; the result is below 29, and the
function is deterministic (equal arguments give equal results). -/
theorem keyed_index_contract (binary_code key : String) :
    compute_char_index binary_code key =
      int_from_bytes_be
        ((sha256 (utf8Encode (key ++ ":" ++ binary_code))).take 4) % 29 ∧
    compute_char_index binary_code key < 29 ∧
    compute_char_index binary_code key = compute_char_index binary_code key := by
  refine ⟨by simp only [compute_char_index, ALPHABET_SIZE_eq], ?_, rfl⟩
  simp only [compute_char_index, ALPHABET_SIZE_eq]
  exact Nat.mod_lt _ (by decide)

/-- C3: the character-to-index map is case-folded and total: `'A'` and
`'a'` map to 0, `' '` to 26, `','` to 27, `'.'` to 28, every alphabet
symbol to its position, every character whose upper-cased form is outside
the alphabet (such as `'1'`) to the space index 26, and the result is
always below 29. -/
theorem char_to_index_spec :
    char_to_index 'A' = 0 ∧ char_to_index 'a' = 0 ∧ char_to_index ' ' = 26 ∧
    char_to_index ',' = 27 ∧ char_to_index '.' = 28 ∧ char_to_index '1' = 26 ∧
    (∀ i : Fin ALPHABET.length, char_to_index (ALPHABET.get i) = i) ∧
    (∀ c : Char, c.toUpper ∉ ALPHABET → char_to_index c = 26) ∧
    (∀ c : Char, char_to_index c < 29) := by
  refine ⟨by decide, by decide, by decide, by decide, by decide, by decide,
    by decide, ?_, ?_⟩
  · intro c h
    simp only [char_to_index]
    rw [if_neg h]
    decide
  · intro c
    by_cases h : c.toUpper ∈ ALPHABET
    · simp only [char_to_index]
      rw [if_pos h]
      have := List.indexOf_lt_length.mpr h
      simpa using this
    · simp only [char_to_index]
      rw [if_neg h]
      decide

/-- Witness for C3 at the concrete character `'@'`, which stays outside the
alphabet after upper-casing. -/
theorem char_to_index_spec_witness : char_to_index '@' = 26 :=
  char_to_index_spec.2.2.2.2.2.2.2.1 '@' (by decide)

/-- C10: `index_to_char` is total on all integers: it returns the alphabet
symbol at position `idx % 29` (an in-range index for every `idx`, including
negative ones, since Python's `%` with a positive modulus is the Euclidean
remainder), and is periodic with period 29, so no index lookup can fail. -/
theorem index_to_char_total (idx : Int) :
    (idx % 29).toNat < ALPHABET.length ∧
    index_to_char idx =
      ALPHABET.get ⟨(idx % 29).toNat, int_emod29_toNat_lt_length idx⟩ ∧
    index_to_char (idx + 29) = index_to_char idx := by
  refine ⟨int_emod29_toNat_lt_length idx, rfl, ?_⟩
  have h : (idx + 29) % 29 = idx % 29 := by omega
  simp only [index_to_char, h]

/-- C9: when no mapping is persisted and the corpus directory is missing,
`initialize_key_mapping` fails with an error and persists nothing, and a
later call with the corpus present performs a fresh build (returning
`builtNow = true` and persisting the freshly built mapping). -/
theorem corpus_missing_aborts (fp : String → Option String) (key : String) :
    initialize_key_mapping none none fp key =
      Except.error "raw image directory does not exist" ∧
    (∀ corpus, initialize_key_mapping none (some corpus) fp key =
      Except.ok (buildGroups fp key corpus, true, some (buildGroups fp key corpus))) := by
  exact ⟨rfl, fun _ => rfl⟩

theorem updateGroups_keys (g : Groups) (i : Nat) (f : String) :
    (updateGroups g i f).map Prod.fst = g.map Prod.fst := by
  simp only [updateGroups, List.map_map]
  apply List.map_congr_left
  intro p _
  by_cases h : p.1 = i <;> simp [h]

theorem buildGroups_foldl_keys (fp : String → Option String) (key : String)
    (corpus : List String) (g : Groups) :
    (corpus.foldl (fun g name =>
      match fp name with
      | none => g
      | some s => if s = "" then g
                  else updateGroups g (compute_char_index s key) name) g).map Prod.fst
      = g.map Prod.fst := by
  induction corpus generalizing g with
  | nil => rfl
  | cons name rest ih =>
    rw [List.foldl_cons, ih]
    cases h : fp name with
    | none => rfl
    | some s =>
      by_cases hs : s = "" <;> simp [hs, updateGroups_keys]

theorem buildGroups_keys (fp : String → Option String) (key : String)
    (corpus : List String) :
    (buildGroups fp key corpus).map Prod.fst = List.range 29 := by
  rw [buildGroups, buildGroups_foldl_keys]
  simp [initGroups, List.map_map, ALPHABET_SIZE_eq]
  rfl

theorem lookup_of_mem_keys {α β : Type} [BEq α] [LawfulBEq α]
    {l : List (α × β)} {a : α} (h : a ∈ l.map Prod.fst) :
    ∃ b, l.lookup a = some b := by
  induction l with
  | nil => simp at h
  | cons p rest ih =>
    by_cases hp : a = p.1
    · exact ⟨p.2, by simp [List.lookup, hp]⟩
    · have h' : a ∈ rest.map Prod.fst := by
        simp only [List.map_cons, List.mem_cons] at h
        exact h.resolve_left hp
      obtain ⟨b, hb⟩ := ih h'
      refine ⟨b, ?_⟩
      have : (a == p.1) = false := by simpa using hp
      simp [List.lookup, this, hb]

/-- C6: for every key and corpus, a fresh build of the mapping has exactly
the bucket indices `0 .. 28` as its keys, in order, regardless of corpus
contents, and every index below 29 can be looked up (its bucket list may be
empty); the persisted mapping (the same `groups` object, dumped to
`mapping.json`) therefore has the same 29 keys. -/
theorem mapping_bucket_coverage (fp : String → Option String) (key : String)
    (corpus : List String) :
    (buildGroups fp key corpus).map Prod.fst = List.range 29 ∧
    (∀ i : Nat, i < 29 → ∃ fs, (buildGroups fp key corpus).lookup i = some fs) ∧
    initialize_key_mapping none (some corpus) fp key =
      Except.ok (buildGroups fp key corpus, true, some (buildGroups fp key corpus)) := by
  refine ⟨buildGroups_keys fp key corpus, ?_, rfl⟩
  intro i hi
  apply lookup_of_mem_keys
  rw [buildGroups_keys]
  simpa using hi

/-- Witness for C6 at a concrete key, bucket index and (empty) corpus. -/
theorem mapping_bucket_coverage_witness :
    ∃ fs, (buildGroups (fun _ => none) "KEY1" []).lookup 7 = some fs :=
  (mapping_bucket_coverage (fun _ => none) "KEY1" []).2.1 7 (by decide)

/-- C8: an image that cannot be decoded yields the failure value from the
fingerprint function (`image_to_binary` returns `None`), and both the
decode path and the index-build path recover locally: the failing image is
skipped with no contribution to the output text or to any bucket, the rest
of the operation proceeds, and the decoded text is at most as long as the
number of uploaded images. -/
theorem fingerprint_failure_skipped :
    image_to_binary none = none ∧
    (∀ (fp : String → Option String) key l1 l2 f, fp f = none →
      decryptImages fp key (l1 ++ f :: l2) = decryptImages fp key (l1 ++ l2)) ∧
    (∀ (fp : String → Option String) key files,
      (decryptImages fp key files).length ≤ files.length) ∧
    (∀ (fp : String → Option String) key corpus1 corpus2 f, fp f = none →
      buildGroups fp key (corpus1 ++ f :: corpus2) =
        buildGroups fp key (corpus1 ++ corpus2)) := by
  refine ⟨rfl, ?_, ?_, ?_⟩
  · intro fp key l1 l2 f h
    simp [decryptImages, List.filterMap_append, h]
  · intro fp key files
    exact List.length_filterMap_le _ _
  · intro fp key corpus1 corpus2 f h
    simp [buildGroups, List.foldl_append, h]

/-- Witness for C8 at a concrete always-failing fingerprint function. -/
theorem fingerprint_failure_skipped_witness :
    decryptImages (fun _ => none) "KEY2" (["x.png"] ++ "bad.png" :: []) =
      decryptImages (fun _ => none) "KEY2" (["x.png"] ++ []) ∧
    buildGroups (fun _ => none) "KEY2" ([] ++ "bad.png" :: []) =
      buildGroups (fun _ => none) "KEY2" ([] ++ []) :=
  ⟨fingerprint_failure_skipped.2.1 (fun _ => none) "KEY2" ["x.png"] [] "bad.png" rfl,
   fingerprint_failure_skipped.2.2.2 (fun _ => none) "KEY2" [] [] "bad.png" rfl⟩

theorem rowOf_lt (h y : Nat) : rowOf h y < 4 := by
  unfold rowOf
  split_ifs <;> omega

theorem rowOf_iff {h y : Nat} (hy : y < h) {i : Nat} (hi : i < 4) :
    (i * (h / 4) ≤ y ∧ y < (if i < 3 then (i + 1) * (h / 4) else h)) ↔
      rowOf h y = i := by
  interval_cases i <;> simp only [rowOf] <;> split_ifs <;>
    (constructor <;> intro hc) <;> first | exact hc.elim | omega

theorem containsPix_blockRect {h w x y i j : Nat} (hy : y < h) (hx : x < w)
    (hi : i < 4) (hj : j < 4) :
    containsPix (blockRect h w i j) x y = true ↔
      (rowOf h y = i ∧ rowOf w x = j) := by
  simp only [containsPix, blockRect, Bool.and_eq_true, decide_eq_true_eq]
  constructor
  · rintro ⟨⟨⟨h1, h2⟩, h3⟩, h4⟩
    exact ⟨(rowOf_iff hy hi).mp ⟨h3, h4⟩, (rowOf_iff hx hj).mp ⟨h1, h2⟩⟩
  · rintro ⟨hr, hc⟩
    obtain ⟨h3, h4⟩ := (rowOf_iff hy hi).mpr hr
    obtain ⟨h1, h2⟩ := (rowOf_iff hx hj).mpr hc
    exact ⟨⟨⟨h1, h2⟩, h3⟩, h4⟩

/-- C5: for every raster with `h ≥ 1` and `w ≥ 1`, the block partition has
exactly 16 blocks, they are the 4×4 grid cells in row-major order with
boundaries from integer division (last row/column absorbing the remainder),
and every pixel of the image lies in exactly one grid cell — no overlap and
no gap. -/
theorem block_partition_exact (h w : Nat) (hh : 1 ≤ h) (hw : 1 ≤ w) :
    (divide_image_into_blocks h w).length = 16 ∧
    divide_image_into_blocks h w =
      (List.range 4).bind (fun i => (List.range 4).map (fun j => blockRect h w i j)) ∧
    ∀ x y, x < w → y < h →
      ∃! ij : Fin 4 × Fin 4,
        containsPix (blockRect h w ij.1 ij.2) x y = true := by
  refine ⟨rfl, rfl, ?_⟩
  intro x y hx hy
  refine ⟨(⟨rowOf h y, rowOf_lt h y⟩, ⟨rowOf w x, rowOf_lt w x⟩), ?_, ?_⟩
  · exact (containsPix_blockRect hy hx (rowOf_lt h y) (rowOf_lt w x)).mpr ⟨rfl, rfl⟩
  · rintro ⟨i, j⟩ hij
    obtain ⟨hr, hc⟩ := (containsPix_blockRect hy hx i.isLt j.isLt).mp hij
    exact Prod.ext (Fin.ext hr.symm) (Fin.ext hc.symm)

/-- Witness for C5 on a concrete 5×7 raster and the pixel `(6, 0)`. -/
theorem block_partition_exact_witness :
    (divide_image_into_blocks 5 7).length = 16 ∧
    divide_image_into_blocks 5 7 =
      (List.range 4).bind (fun i => (List.range 4).map (fun j => blockRect 5 7 i j)) ∧
    ∀ x y, x < 7 → y < 5 →
      ∃! ij : Fin 4 × Fin 4,
        containsPix (blockRect 5 7 ij.1 ij.2) x y = true :=
  block_partition_exact 5 7 (by decide) (by decide)

theorem pymod360_eq_self {x : ℚ} (h0 : 0 ≤ x) (h1 : x < 360) : pymod360 x = x := by
  unfold pymod360
  have hf : ⌊x / 360⌋ = 0 := by
    rw [Int.floor_eq_zero_iff]
    constructor
    · positivity
    · rw [div_lt_one (by norm_num)]
      simpa using h1
  rw [hf]
  norm_num

theorem pymod360_bounds (x : ℚ) : 0 ≤ pymod360 x ∧ pymod360 x < 360 := by
  have h : pymod360 x = 360 * Int.fract (x / 360) := by
    unfold pymod360 Int.fract
    field_simp
  refine ⟨h ▸ mul_nonneg (by norm_num) (Int.fract_nonneg _), ?_⟩
  rw [h]
  nlinarith [Int.fract_lt_one (x / 360)]

theorem get_vector_quadrant_mem (a : ℚ) :
    get_vector_quadrant a ∈ (["--", "00", "01", "10", "11"] : List String) := by
  simp only [get_vector_quadrant]
  split_ifs <;> simp

theorem blockCode_mem (a : Option ℚ) :
    blockCode a ∈ (["--", "00", "01", "10", "11"] : List String) := by
  cases a with
  | none => simp [blockCode]
  | some ang => exact get_vector_quadrant_mem ang

theorem blockCode_length (a : Option ℚ) : (blockCode a).length = 2 := by
  have h := blockCode_mem a
  simp only [List.mem_cons, List.not_mem_nil, or_false] at h
  rcases h with h | h | h | h | h <;> rw [h] <;> rfl

theorem blockCode_chars (a : Option ℚ) :
    ∀ c ∈ (blockCode a).data, c = '0' ∨ c = '1' ∨ c = '-' := by
  have h := blockCode_mem a
  simp only [List.mem_cons, List.not_mem_nil, or_false] at h
  rcases h with h | h | h | h | h <;> rw [h] <;> decide

/-- Counterexample to C4: at the axis angle 90° the quadrant encoder emits
the sentinel `"--"`, not a 2-bit code, and an image whose 16 blocks all
yield an axis angle gets a 32-character fingerprint made of `'-'`,
not a binary string over `{0, 1}`. -/
theorem quadrant_axis_counterexample :
    get_vector_quadrant 90 = "--" ∧
    ("--" ≠ "00" ∧ "--" ≠ "01" ∧ "--" ≠ "10" ∧ "--" ≠ "11") ∧
    binaryStringOfBlocks (List.replicate 16 (some 90)) =
      "--------------------------------" := by
  have h : pymod360 90 = 90 := pymod360_eq_self (by norm_num) (by norm_num)
  have hq : get_vector_quadrant 90 = "--" := by
    simp only [get_vector_quadrant, h]
    rw [if_pos]
    unfold axisNear axisTolerance
    norm_num
  refine ⟨hq, by decide, ?_⟩
  simp [binaryStringOfBlocks, blockCode, hq, String.join]

/-- C4 (amended): the per-block quadrant encoder maps an angle normalized
into `[0°, 360°)` that is strictly inside `(0°, 90°)` and not within the
axis tolerance to `"00"`, inside `(90°, 180°)` to `"01"`, inside
`(180°, 270°)` to `"10"`, inside `(270°, 360°)` to `"11"`; an angle landing
on `0°/90°/180°/270°/360°` within the tolerance yields the deterministic
two-character sentinel `"--"` (not a 2-bit code), so the concatenation of
the 16 per-block codes is always a 32-character string over the alphabet
`{0, 1, -}` (not over `{0, 1}`). -/
theorem quadrant_code_amended :
    (∀ a : ℚ,
      get_vector_quadrant a ∈ (["--", "00", "01", "10", "11"] : List String) ∧
      (axisNear (pymod360 a) → get_vector_quadrant a = "--") ∧
      (¬ axisNear (pymod360 a) →
        (0 < pymod360 a ∧ pymod360 a < 90 → get_vector_quadrant a = "00") ∧
        (90 < pymod360 a ∧ pymod360 a < 180 → get_vector_quadrant a = "01") ∧
        (180 < pymod360 a ∧ pymod360 a < 270 → get_vector_quadrant a = "10") ∧
        (270 < pymod360 a ∧ pymod360 a < 360 → get_vector_quadrant a = "11"))) ∧
    (∀ angles : List (Option ℚ), angles.length = 16 →
      (binaryStringOfBlocks angles).length = 32 ∧
      ∀ c ∈ (binaryStringOfBlocks angles).data, c = '0' ∨ c = '1' ∨ c = '-') := by
  constructor
  · intro a
    refine ⟨get_vector_quadrant_mem a, ?_, ?_⟩
    · intro hax
      simp only [get_vector_quadrant]
      rw [if_pos hax]
    · intro hax
      refine ⟨?_, ?_, ?_, ?_⟩
      · rintro ⟨h1, h2⟩
        simp only [get_vector_quadrant]
        rw [if_neg hax, if_pos ⟨h1, h2⟩]
      · rintro ⟨h1, h2⟩
        simp only [get_vector_quadrant]
        rw [if_neg hax, if_neg (by rintro ⟨_, hlt⟩; linarith), if_pos ⟨h1, h2⟩]
      · rintro ⟨h1, h2⟩
        simp only [get_vector_quadrant]
        rw [if_neg hax, if_neg (by rintro ⟨_, hlt⟩; linarith),
          if_neg (by rintro ⟨_, hlt⟩; linarith), if_pos ⟨h1, h2⟩]
      · rintro ⟨h1, h2⟩
        simp only [get_vector_quadrant]
        rw [if_neg hax, if_neg (by rintro ⟨_, hlt⟩; linarith),
          if_neg (by rintro ⟨_, hlt⟩; linarith),
          if_neg (by rintro ⟨_, hlt⟩; linarith)]
  · intro angles hlen
    have hdata : (binaryStringOfBlocks angles).data =
        (angles.map (fun a => (blockCode a).data)).flatten := by
      simp only [binaryStringOfBlocks, String.data_join, List.map_map]
      rfl
    constructor
    · show (binaryStringOfBlocks angles).data.length = 32
      rw [hdata, List.length_flatten, List.map_map]
      have hrep : (angles.map (List.length ∘ fun a => (blockCode a).data)) =
          List.replicate angles.length 2 := by
        rw [List.eq_replicate_iff]
        refine ⟨by simp, ?_⟩
        intro b hb
        obtain ⟨a, _, rfl⟩ := List.mem_map.mp hb
        exact blockCode_length a
      rw [hrep, hlen]
      simp
    · intro c hc
      rw [hdata] at hc
      obtain ⟨l, hl, hcl⟩ := List.mem_flatten.mp hc
      obtain ⟨a, _, rfl⟩ := List.mem_map.mp hl
      exact blockCode_chars a c hcl

/-- Witness for C4 (amended) at the concrete angle 45° and a concrete
16-block image with no keypoints in any block. -/
theorem quadrant_code_amended_witness :
    get_vector_quadrant 45 = "00" ∧
    (binaryStringOfBlocks (List.replicate 16 none)).length = 32 := by
  have h45 : pymod360 45 = 45 := pymod360_eq_self (by norm_num) (by norm_num)
  constructor
  · refine ((quadrant_code_amended.1 45).2.2 ?_).1 ?_
    · rw [h45]
      intro hax
      rcases hax with hx | hx | hx | hx | hx <;> rw [abs_lt] at hx <;>
        unfold axisTolerance at hx <;> linarith [hx.1, hx.2]
    · rw [h45]
      norm_num
  · exact (quadrant_code_amended.2 (List.replicate 16 none) (by simp)).1

theorem lookup_updateGroups (g : Groups) (i : Nat) (f : String) (i' : Nat) :
    (updateGroups g i f).lookup i' =
      (g.lookup i').map (fun fs => if i' = i then fs ++ [f] else fs) := by
  induction g with
  | nil => rfl
  | cons p rest ih =>
    obtain ⟨k, v⟩ := p
    simp only [updateGroups, List.map_cons] at ih ⊢
    by_cases hk : k = i
    · subst hk
      rw [if_pos rfl]
      by_cases hik : i' = k
      · subst hik
        simp [List.lookup]
      · have hb : (i' == k) = false := by simpa using hik
        simp [List.lookup, hb, ih]
    · rw [if_neg hk]
      by_cases hik : i' = k
      · subst hik
        have hne : ¬ i' = i := hk
        simp [List.lookup, hne]
      · have hb : (i' == k) = false := by simpa using hik
        simp [List.lookup, hb, ih]

theorem choice_mem {chooser : Nat → List String → String}
    (hch : ∀ n l, l ≠ [] → chooser n l ∈ l) (k : Nat)
    (files usedl : List String) (hf : files ≠ []) :
    (if files.filter (fun f => decide (f ∉ usedl)) = [] then chooser k files
     else chooser k (files.filter (fun f => decide (f ∉ usedl)))) ∈ files := by
  by_cases hu : files.filter (fun f => decide (f ∉ usedl)) = []
  · rw [if_pos hu]
    exact hch k files hf
  · rw [if_neg hu]
    exact List.mem_of_mem_filter (hch k _ hu)

theorem choice_used {chooser : Nat → List String → String}
    (hch : ∀ n l, l ≠ [] → chooser n l ∈ l) (k : Nat)
    (files usedl : List String) (hf : files ≠ [])
    (hused : (if files.filter (fun f => decide (f ∉ usedl)) = [] then chooser k files
              else chooser k (files.filter (fun f => decide (f ∉ usedl)))) ∈ usedl) :
    ∀ g ∈ files, g ∈ usedl := by
  by_cases hu : files.filter (fun f => decide (f ∉ usedl)) = []
  · intro g hg
    have hall := List.filter_eq_nil.mp hu g hg
    simpa using hall
  · rw [if_neg hu] at hused
    have hmem := hch k _ hu
    have hnot := List.of_mem_filter hmem
    simp only [decide_eq_true_eq] at hnot
    exact absurd hused hnot

theorem encryptTrace_map (M : Groups) (chooser : Nat → List String → String) :
    ∀ (text : List Char) (k : Nat) (used : Nat → List String),
      (encryptTrace M chooser text k used).map (fun e => (e.1, e.2.2)) =
        encryptText M chooser text k used := by
  intro text
  induction text with
  | nil => intro k used; rfl
  | cons ch rest ih =>
    intro k used
    simp only [encryptTrace, encryptText]
    by_cases hf : lookupGroups M (char_to_index ch) = []
    · rw [if_pos hf, if_pos hf]
      exact ih k used
    · rw [if_neg hf, if_neg hf]
      simp only [List.map_cons]
      rw [ih]

theorem encryptTrace_spec (M : Groups) (chooser : Nat → List String → String)
    (hch : ∀ n l, l ≠ [] → chooser n l ∈ l) :
    ∀ (text : List Char) (k : Nat) (used : Nat → List String)
      (pre : List (Nat × List String × String)) (e : Nat × List String × String)
      (post : List (Nat × List String × String)),
      encryptTrace M chooser text k used = pre ++ e :: post →
      e.2.2 ∈ lookupGroups M e.1 ∧
      (∀ f, f ∈ e.2.1 ↔ (f ∈ used e.1 ∨ ∃ u, (e.1, u, f) ∈ pre)) ∧
      (e.2.2 ∈ e.2.1 → ∀ g ∈ lookupGroups M e.1, g ∈ e.2.1) := by
  intro text
  induction text with
  | nil =>
    intro k used pre e post h
    exact absurd h (by simp [encryptTrace])
  | cons ch rest ih =>
    intro k used pre e post h
    simp only [encryptTrace] at h
    by_cases hf : lookupGroups M (char_to_index ch) = []
    · rw [if_pos hf] at h
      exact ih k used pre e post h
    · rw [if_neg hf] at h
      cases pre with
      | nil =>
        simp only [List.nil_append] at h
        injection h with he hp
        subst he
        refine ⟨choice_mem hch _ _ _ hf, ?_, fun hused => choice_used hch _ _ _ hf hused⟩
        intro f
        simp
      | cons p pre' =>
        simp only [List.cons_append] at h
        injection h with he hp
        subst he
        have hrec := ih (k + 1)
          (fun j => if j = char_to_index ch then
            (if (lookupGroups M (char_to_index ch)).filter
                  (fun f => decide (f ∉ used (char_to_index ch))) = [] then
              chooser k (lookupGroups M (char_to_index ch))
             else
              chooser k ((lookupGroups M (char_to_index ch)).filter
                (fun f => decide (f ∉ used (char_to_index ch))))) :: used j
            else used j)
          pre' e post hp
        refine ⟨hrec.1, ?_, hrec.2.2⟩
        intro f
        rw [hrec.2.1 f]
        by_cases hei : e.1 = char_to_index ch
        · simp only [if_pos hei, List.mem_cons]
          constructor
          · rintro (h1 | h1)
            · rcases h1 with h1 | h1
              · right
                refine ⟨used (char_to_index ch), ?_⟩
                rw [h1, hei]
                exact Or.inl rfl
              · left
                exact h1
            · right
              obtain ⟨u, hu⟩ := h1
              exact ⟨u, Or.inr hu⟩
          · rintro (h1 | ⟨u, hu⟩)
            · left
              right
              exact h1
            · rcases hu with h2 | h2
              · left
                left
                injection h2 with ha hb
                rw [Prod.ext_iff] at hb
                exact hb.2
              · right
                exact ⟨u, h2⟩
        · simp only [if_neg hei, List.mem_cons]
          constructor
          · rintro (h1 | ⟨u, hu⟩)
            · left
              exact h1
            · right
              exact ⟨u, Or.inr hu⟩
          · rintro (h1 | ⟨u, hu⟩)
            · left
              exact h1
            · rcases hu with h2 | h2
              · injection h2 with ha hb
                exact absurd ha hei
              · right
                exact ⟨u, h2⟩

/-- C7: within a single encode call (used-set state created empty for the
call and existing only inside it), every selection recorded in the call's
trace picks a filename from the selected bucket; the used-set seen by a
selection consists exactly of the filenames selected for that bucket
earlier in the same call; and a selection picks an already-used filename
only when every candidate of the bucket is already used.  The first
conjunct ties the instrumented trace to `encryptText`, whose output is what
the endpoint returns.  The property holds for every chooser that picks an
element of a nonempty list, hence for every outcome of `random.choice`. -/
theorem encode_anti_repetition (mapping : Groups)
    (chooser : Nat → List String → String) (text : List Char) (k0 : Nat)
    (hch : ∀ n l, l ≠ [] → chooser n l ∈ l) :
    ((encryptTrace mapping chooser text k0 (fun _ => [])).map
        (fun e => (e.1, e.2.2)) = encryptText mapping chooser text k0 (fun _ => [])) ∧
    ∀ pre e post,
      encryptTrace mapping chooser text k0 (fun _ => []) = pre ++ e :: post →
      e.2.2 ∈ lookupGroups mapping e.1 ∧
      (∀ f, f ∈ e.2.1 ↔ ∃ u, (e.1, u, f) ∈ pre) ∧
      (e.2.2 ∈ e.2.1 → ∀ g ∈ lookupGroups mapping e.1, g ∈ e.2.1) := by
  refine ⟨encryptTrace_map mapping chooser text k0 (fun _ => []), ?_⟩
  intro pre e post h
  have hs := encryptTrace_spec mapping chooser hch text k0 (fun _ => []) pre e post h
  refine ⟨hs.1, ?_, hs.2.2⟩
  intro f
  rw [hs.2.1 f]
  simp

/-- Witness for C7: two encodings of `'!'` (bucket 26) from a two-image
bucket with a head-picking chooser; the second selection's used-set is
exactly the first selection, and its choice avoids the used image. -/
theorem encode_anti_repetition_witness :
    ("y" ∈ lookupGroups [(26, ["x", "y"])] 26) ∧
    (∀ f, f ∈ (["x"] : List String) ↔
      ∃ u, ((26 : Nat), u, f) ∈ ([((26 : Nat), ([] : List String), "x")] :
        List (Nat × List String × String))) ∧
    ("y" ∈ (["x"] : List String) →
      ∀ g ∈ lookupGroups [(26, ["x", "y"])] 26, g ∈ (["x"] : List String)) :=
  (encode_anti_repetition [(26, ["x", "y"])] (fun _ l => l.headD "")
    ['!', '!'] 0
    (fun n l hl => by
      cases l with
      | nil => exact absurd rfl hl
      | cons a t => exact List.mem_cons_self a t)).2
    [(26, [], "x")] (26, ["x"], "y") [] (by decide)

theorem lookup_map_nil {l : List Nat} {i : Nat} {fs : List String}
    (h : ((l.map (fun j => (j, ([] : List String)))).lookup i) = some fs) :
    fs = [] := by
  induction l with
  | nil => simp [List.lookup] at h
  | cons a t ih =>
    by_cases hia : i = a
    · have hb : (i == a) = true := by simpa using hia
      simp only [List.map_cons, List.lookup, hb] at h
      exact (Option.some.injEq _ _ ▸ h).symm
    · have hb : (i == a) = false := by simpa using hia
      simp only [List.map_cons, List.lookup, hb] at h
      exact ih h

theorem initGroups_lookup {i : Nat} (hi : i < 29) :
    initGroups.lookup i = some [] := by
  have hmem : i ∈ initGroups.map Prod.fst := by
    simp [initGroups, List.map_map, ALPHABET_SIZE_eq, List.mem_range]
    simpa using hi
  obtain ⟨fs, hfs⟩ := lookup_of_mem_keys hmem
  have hnil : fs = [] := lookup_map_nil hfs
  rw [hfs, hnil]

theorem compute_char_index_lt (binary_code key : String) :
    compute_char_index binary_code key < 29 := by
  simp only [compute_char_index, ALPHABET_SIZE_eq]
  exact Nat.mod_lt _ (by decide)

theorem buildGroups_sound_aux (fp : String → Option String) (key : String) :
    ∀ (corpus : List String) (g : Groups),
      (∀ i fs, g.lookup i = some fs → ∀ f ∈ fs,
        ∃ s, fp f = some s ∧ s ≠ "" ∧ compute_char_index s key = i) →
      ∀ i fs,
        (corpus.foldl (fun g name =>
          match fp name with
          | none => g
          | some s => if s = "" then g
                      else updateGroups g (compute_char_index s key) name) g).lookup i
          = some fs →
        ∀ f ∈ fs, ∃ s, fp f = some s ∧ s ≠ "" ∧ compute_char_index s key = i := by
  intro corpus
  induction corpus with
  | nil => intro g hg; exact hg
  | cons name rest ih =>
    intro g hg
    rw [List.foldl_cons]
    apply ih
    intro i fs hlk f hf
    cases hfp : fp name with
    | none =>
      rw [hfp] at hlk
      exact hg i fs hlk f hf
    | some s =>
      rw [hfp] at hlk
      dsimp only [] at hlk
      by_cases hs : s = ""
      · rw [if_pos hs] at hlk
        exact hg i fs hlk f hf
      · rw [if_neg hs, lookup_updateGroups] at hlk
        cases hgi : g.lookup i with
        | none => rw [hgi] at hlk; exact absurd hlk (by simp)
        | some fs0 =>
          rw [hgi] at hlk
          simp only [Option.map_some', Option.some.injEq] at hlk
          by_cases hic : i = compute_char_index s key
          · rw [if_pos hic] at hlk
            rw [← hlk] at hf
            rcases List.mem_append.mp hf with hmem | hmem
            · exact hg i fs0 hgi f hmem
            · have hfn : f = name := by simpa using hmem
              subst hfn
              exact ⟨s, hfp, hs, hic.symm⟩
          · rw [if_neg hic] at hlk
            rw [← hlk] at hf
            exact hg i fs0 hgi f hf

theorem buildGroups_sound (fp : String → Option String) (key : String)
    (corpus : List String) :
    ∀ i f, f ∈ lookupGroups (buildGroups fp key corpus) i →
      ∃ s, fp f = some s ∧ s ≠ "" ∧ compute_char_index s key = i := by
  intro i f hf
  unfold lookupGroups at hf
  cases hlk : (buildGroups fp key corpus).lookup i with
  | none => rw [hlk] at hf; exact absurd hf (by simp)
  | some fs =>
    rw [hlk] at hf
    simp only [Option.getD_some] at hf
    refine buildGroups_sound_aux fp key corpus initGroups ?_ i fs hlk f hf
    intro i0 fs0 h0 f0 hf0
    have : fs0 = [] := lookup_map_nil h0
    subst this
    exact absurd hf0 (by simp)

theorem char_to_index_get :
    ∀ i : Fin ALPHABET.length, char_to_index (ALPHABET.get i) = (i : Nat) := by
  decide

theorem index_to_char_nat {n : Nat} (hn : n < 29) :
    index_to_char (n : Int) =
      ALPHABET.get ⟨n, by rw [(by decide : ALPHABET.length = 29)]; exact hn⟩ := by
  have harg : (((n : Int)) % 29).toNat = n := by omega
  simp only [index_to_char, harg]

theorem char_to_index_index_to_char {n : Nat} (hn : n < 29) :
    char_to_index (index_to_char (n : Int)) = n := by
  rw [index_to_char_nat hn]
  exact char_to_index_get _

theorem index_to_char_char_to_index (ch : Char) :
    index_to_char (char_to_index ch : Int) = normalizeChar ch := by
  by_cases hc : ch.toUpper ∈ ALPHABET
  · have hidx : char_to_index ch = ALPHABET.indexOf ch.toUpper := by
      simp only [char_to_index]
      rw [if_pos hc]
    have hlt : ALPHABET.indexOf ch.toUpper < ALPHABET.length :=
      List.indexOf_lt_length.mpr hc
    have hlt29 : ALPHABET.indexOf ch.toUpper < 29 := by
      have h29 : ALPHABET.length = 29 := by decide
      rw [← h29]
      exact hlt
    rw [hidx, index_to_char_nat hlt29, List.indexOf_get]
    simp only [normalizeChar]
    rw [if_pos hc]
  · have hidx : char_to_index ch = 26 := by
      simp only [char_to_index]
      rw [if_neg hc]
      decide
    have h26 : index_to_char ((26 : Nat) : Int) = ' ' := by decide
    rw [hidx, h26]
    simp only [normalizeChar]
    rw [if_neg hc]

theorem decrypt_encrypt_loop (fp : String → Option String) (key : String)
    (M : Groups)
    (hM : ∀ i f, f ∈ lookupGroups M i →
      ∃ s, fp f = some s ∧ s ≠ "" ∧ compute_char_index s key = i)
    (chooser : Nat → List String → String)
    (hch : ∀ n l, l ≠ [] → chooser n l ∈ l) :
    ∀ (text : List Char) (k : Nat) (used : Nat → List String),
      (∀ ch ∈ text, lookupGroups M (char_to_index ch) ≠ []) →
      decryptImages fp key ((encryptText M chooser text k used).map Prod.snd) =
        text.map normalizeChar := by
  intro text
  induction text with
  | nil => intro k used hb; rfl
  | cons ch rest ih =>
    intro k used hb
    have hf : lookupGroups M (char_to_index ch) ≠ [] :=
      hb ch (List.mem_cons_self ch rest)
    simp only [encryptText]
    rw [if_neg hf]
    simp only [List.map_cons]
    have hcm := choice_mem hch k (lookupGroups M (char_to_index ch))
      (used (char_to_index ch)) hf
    obtain ⟨s, hfp, hs, hidx⟩ := hM _ _ hcm
    simp only [decryptImages, List.filterMap_cons, hfp]
    rw [if_neg hs]
    rw [hidx, index_to_char_char_to_index]
    simp only [List.map_cons]
    congr 1
    exact ih (k + 1) _ (fun ch' hmem => hb ch' (List.mem_cons_of_mem ch hmem))

/-- C2: encoding a text with a key over a corpus and decoding the resulting
image sequence with the same key yields, in order, the alphabet-normalized
form of the text (upper-cased, non-alphabet characters mapped to space) —
provided every bucket looked up during encoding is non-empty.  The claim's
assumption that each materialized image's recomputed fingerprint equals the
fingerprint computed at index-build time is embodied by both directions
using the same fingerprint function `fp`; the chooser hypothesis covers
every possible outcome of the random selection. -/
theorem encode_decode_roundtrip (fp : String → Option String) (key : String)
    (corpus : List String) (text : List Char)
    (chooser : Nat → List String → String) (k0 : Nat)
    (hch : ∀ n l, l ≠ [] → chooser n l ∈ l)
    (hbuckets : ∀ ch ∈ text,
      lookupGroups (buildGroups fp key corpus) (char_to_index ch) ≠ []) :
    decryptImages fp key
      ((encryptText (buildGroups fp key corpus) chooser text k0
        (fun _ => [])).map Prod.snd) =
      text.map normalizeChar :=
  decrypt_encrypt_loop fp key (buildGroups fp key corpus)
    (buildGroups_sound fp key corpus) chooser hch text k0 (fun _ => []) hbuckets

set_option maxRecDepth 10000 in
/-- Witness for C2: a one-image corpus with fingerprint `"01"`, key `"K"`,
and as plaintext the single alphabet character of the image's own bucket,
encoded with a head-picking chooser and decoded back. -/
theorem encode_decode_roundtrip_witness :
    decryptImages (fun _ => some "01") "K"
      ((encryptText (buildGroups (fun _ => some "01") "K" ["a.jpg"])
          (fun _ l => l.headD "")
          [index_to_char (compute_char_index "01" "K" : Int)] 0
          (fun _ => [])).map Prod.snd) =
      [index_to_char (compute_char_index "01" "K" : Int)].map normalizeChar :=
  encode_decode_roundtrip (fun _ => some "01") "K" ["a.jpg"]
    [index_to_char (compute_char_index "01" "K" : Int)] (fun _ l => l.headD "") 0
    (fun n l hl => by
      cases l with
      | nil => exact absurd rfl hl
      | cons a t => exact List.mem_cons_self a t)
    (by
      intro ch hmem
      have hc : ch = index_to_char (compute_char_index "01" "K" : Int) := by
        simpa using hmem
      subst hc
      rw [char_to_index_index_to_char (compute_char_index_lt "01" "K")]
      have hbg : buildGroups (fun _ => some "01") "K" ["a.jpg"] =
          updateGroups initGroups (compute_char_index "01" "K") "a.jpg" := by
        simp only [buildGroups, List.foldl_cons, List.foldl_nil]
        rw [if_neg (by decide : ¬("01" = ""))]
      rw [hbg]
      unfold lookupGroups
      rw [lookup_updateGroups, initGroups_lookup (compute_char_index_lt "01" "K")]
      simp)
